import Mathlib

/-!
Verification of the Cricbuzz dashboard (`src/cricket_project/app.py`).

The app loads a matches table, back-fills missing expected columns with
nulls, coerces the `Start Date` column to dates (`errors='coerce'`), and
computes KPI aggregations (mode, masked category counts, `value_counts`
frequency tables truncated to 10 entries, group-by-year time series).

Shallow embedding: a table is a row count plus a list of named columns;
a cell is null, a string, or a date.  The pandas library calls used by
the app are modelled as executable Lean functions over lists.
-/

namespace Cricbuzz

/-- A dataframe cell: missing (`NaN`/`NaT`/`None`), a raw string, or a
parsed date (year, month, day). -/
inductive Cell where
  | null : Cell
  | str : String → Cell
  | date : (y : Nat) → (m : Nat) → (d : Nat) → Cell
deriving DecidableEq, Repr

/-- Number of days in a month, Gregorian calendar (pandas validates real
dates, leap years included). -/
def daysInMonth (y m : Nat) : Nat :=
  if m = 2 then
    if (y % 4 = 0 ∧ y % 100 ≠ 0) ∨ y % 400 = 0 then 29 else 28
  else if m = 4 ∨ m = 6 ∨ m = 9 ∨ m = 11 then 30 else 31

/-- Split a character list at each dash (the `s.splitOn "-"` of the
date layout). -/
def splitDash : List Char → List (List Char)
  | [] => [[]]
  | c :: rest =>
    if c = '-' then [] :: splitDash rest
    else
      match splitDash rest with
      | [] => [[c]]
      | g :: gs => (c :: g) :: gs

/-- Parse a non-empty all-digit character list as a decimal number. -/
def digitsToNat? (cs : List Char) : Option Nat :=
  if cs ≠ [] ∧ cs.all Char.isDigit then
    some (cs.foldl (fun n c => n * 10 + (c.toNat - 48)) 0)
  else none

/-- Models the string-parsing part of `pd.to_datetime`, restricted to the
ISO `YYYY-MM-DD` layout used by the data: three dash-separated decimal
components forming a valid calendar date; anything else fails. -/
def parseDate (s : String) : Option (Nat × Nat × Nat) :=
  match splitDash s.data with
  | [ys, ms, ds] =>
    match digitsToNat? ys, digitsToNat? ms, digitsToNat? ds with
    | some y, some m, some d =>
      if 1 ≤ m ∧ m ≤ 12 ∧ 1 ≤ d ∧ d ≤ daysInMonth y m then some (y, m, d) else none
    | _, _, _ => none
  | _ => none

/-- Models `pd.to_datetime(·, errors='coerce')` cell-wise: nulls stay
null, already-parsed dates are returned unchanged, strings either parse
to a date or are coerced to null.  Total by construction (never raises). -/
def to_datetime : Cell → Cell
  | Cell.null => Cell.null
  | Cell.date y m d => Cell.date y m d
  | Cell.str s =>
    match parseDate s with
    | some (y, m, d) => Cell.date y m d
    | none => Cell.null

/-- Character-wise lower-casing, modelling `Series.str.lower()` on the
ASCII labels used by the data. -/
def str_lower (s : String) : String := String.mk (s.data.map Char.toLower)

/-- Model of `Series.notnull().any()`: does the column contain a non-null entry? -/
def notnull_any (col : List (Option String)) : Bool := col.any (fun c => c.isSome)

/-- Model of `Series.dropna()`: the non-null values of a column, in order. -/
def dropna (col : List (Option String)) : List String := col.filterMap id

/-- The boolean mask `series.str.lower() == target` at one cell: a null
cell never matches (`NaN == target` is false in pandas). -/
def matchesTarget (target : String) (c : Option String) : Bool :=
  match c with
  | some s => str_lower s == target
  | none => false

/-- Models e.g.
`matches[matches['Match Category'].str.lower() == 'upcoming'].shape[0]
 if matches['Match Category'].notnull().any() else 0`
(`app.py` lines 94–96). -/
def category_count (col : List (Option String)) (target : String) : Nat :=
  if notnull_any col then col.countP (matchesTarget target) else 0

/-- Remove duplicates keeping the first occurrence of each value (the key
order produced by pandas hash-based grouping). -/
def dedupKeepFirst {α : Type} [DecidableEq α] : List α → List α
  | [] => []
  | a :: as => a :: (dedupKeepFirst as).filter (fun b => b != a)

/-- Lexicographic order on character lists, comparing code points. -/
def listCharLe : List Char → List Char → Bool
  | [], _ => true
  | _ :: _, [] => false
  | a :: as, b :: bs =>
    if a.toNat = b.toNat then listCharLe as bs else decide (a.toNat < b.toNat)

/-- Lexicographic (ascending) order on strings, as used by pandas when
sorting the mode values. -/
def strLe (a b : String) : Bool := listCharLe a.data b.data

/-- The largest frequency attained by any value of the list. -/
def maxCount (vs : List String) : Nat := (vs.map (fun v => vs.count v)).foldr max 0

/-- Models `Series.mode()`: the non-null values of maximal frequency, in
ascending order. -/
def mode (col : List (Option String)) : List String :=
  ((dedupKeepFirst (dropna col)).filter
      (fun v => (dropna col).count v == maxCount (dropna col))).mergeSort strLe

/-- Model of `matches['Venue'].mode()[0] if matches['Venue'].notnull().any() else "N/A"`
(`app.py` line 93); the `[0]` indexing of the guarded branch is the head of
the (then non-empty) ascending mode list. -/
def most_played_venue (col : List (Option String)) : String :=
  if notnull_any col then (mode col).headD "N/A" else "N/A"

/-- Models `Series.value_counts()`: each distinct non-null value paired with
its count, sorted by count descending; ties keep first-appearance order. -/
def value_counts (col : List (Option String)) : List (String × Nat) :=
  ((dedupKeepFirst (dropna col)).map (fun k => (k, (dropna col).count k))).mergeSort
    (fun a b => decide (b.2 ≤ a.2))

/-- Model of `DataFrame.head(10)`: the top-10 truncation applied before charting. -/
def head10 (l : List (String × Nat)) : List (String × Nat) := l.take 10

/-- Model of `pd.concat([matches['Team 1'], matches['Team 2']]).value_counts()`
(`app.py` line 152). -/
def team_counts (col1 col2 : List (Option String)) : List (String × Nat) :=
  value_counts (col1 ++ col2)

/-- The "Matches by Category" KPI chart table (`app.py` lines 123–125):
raw, case-sensitive `value_counts` over the category column. -/
def category_counts (col : List (Option String)) : List (String × Nat) :=
  value_counts col

/-- Model of `.dt.year` on the parsed date column: the year of a date cell, null
otherwise (`NaT.year` is null). -/
def dt_year : Cell → Option Nat
  | Cell.date y _ _ => some y
  | _ => none

/-- Models `matches.groupby(matches['Start Date'].dt.year).size()`
(`app.py` line 159): rows counted per year, null keys dropped, keys in
ascending order. -/
def over_years (col : List Cell) : List (Nat × Nat) :=
  ((dedupKeepFirst (col.filterMap dt_year)).mergeSort (fun a b => decide (a ≤ b))).map
    (fun y => (y, (col.filterMap dt_year).count y))

/-- An in-memory dataframe: a row count and named columns. -/
structure Table where
  nrows : Nat
  cols : List (String × List Cell)
deriving DecidableEq, Repr

/-- Membership test `c in t.columns`. -/
def hasCol (t : Table) (c : String) : Bool := t.cols.any (fun p => p.1 == c)

/-- Column lookup (first column of that name, as in a dataframe). -/
def getCol (t : Table) (c : String) : Option (List Cell) :=
  (t.cols.find? (fun p => p.1 == c)).map (fun p => p.2)

/-- The required match-table columns (`expected_cols`, `app.py` line 17). -/
def expected_cols : List String :=
  ["Venue", "City", "Team 1", "Team 2", "Series", "Match Category", "Start Date", "Toss Winner"]

/-- The back-fill loop of `load_data` (`app.py` lines 18–20):
`for col in expected_cols: if col not in matches.columns: matches[col] = None`. -/
def add_missing : List String → Table → Table
  | [], t => t
  | c :: rest, t =>
    add_missing rest
      (if hasCol t c then t else ⟨t.nrows, t.cols ++ [(c, List.replicate t.nrows Cell.null)]⟩)

/-- Model of `matches['Start Date'] = pd.to_datetime(matches['Start Date'], errors='coerce')`
(`app.py` line 23), applied cell-wise to the column. -/
def convert_start_date (t : Table) : Table :=
  ⟨t.nrows, t.cols.map (fun p => if p.1 == "Start Date" then (p.1, p.2.map to_datetime) else p)⟩

/-- Model of `load_data` restricted to the matches table: back-fill the expected
columns, then coerce `Start Date`. -/
def load_matches (t : Table) : Table := convert_start_date (add_missing expected_cols t)

end Cricbuzz

namespace Cricbuzz

/-- C2: the `Start Date` parsing step (`pd.to_datetime(..., errors='coerce')`,
`app.py` line 23) is total and idempotent: every string cell either parses to
a date or is coerced to null (never raises, being a total function), and
re-parsing an already-parsed result yields the same value. -/
theorem to_datetime_total_idempotent :
    (∀ c : Cell, to_datetime (to_datetime c) = to_datetime c) ∧
    (∀ s : String, to_datetime (Cell.str s) = Cell.null ∨
      ∃ y m d, to_datetime (Cell.str s) = Cell.date y m d) := by
  constructor
  · intro c
    cases c with
    | null => rfl
    | date y m d => rfl
    | str s =>
      simp only [to_datetime]
      cases h : parseDate s with
      | none => rfl
      | some v => rcases v with ⟨y, m, d⟩; rfl
  · intro s
    simp only [to_datetime]
    cases h : parseDate s with
    | none => exact Or.inl rfl
    | some v =>
      rcases v with ⟨y, m, d⟩
      exact Or.inr ⟨y, m, d, rfl⟩

/-! ### Helper lemmas about the embedded pandas primitives -/

theorem mem_dedupKeepFirst {α : Type} [DecidableEq α] {x : α} {l : List α} :
    x ∈ dedupKeepFirst l ↔ x ∈ l := by
  induction l with
  | nil => simp [dedupKeepFirst]
  | cons a as ih =>
    simp only [dedupKeepFirst, List.mem_cons, List.mem_filter, bne_iff_ne, ih]
    by_cases hxa : x = a <;> simp [hxa]

theorem nodup_dedupKeepFirst {α : Type} [DecidableEq α] (l : List α) :
    (dedupKeepFirst l).Nodup := by
  induction l with
  | nil => simp [dedupKeepFirst]
  | cons a as ih =>
    refine List.nodup_cons.mpr ⟨?_, List.Nodup.filter _ ih⟩
    simp [List.mem_filter]

theorem dedupKeepFirst_sublist {α : Type} [DecidableEq α] (l : List α) :
    List.Sublist (dedupKeepFirst l) l := by
  induction l with
  | nil => simp [dedupKeepFirst]
  | cons a as ih =>
    exact List.Sublist.cons₂ a ((List.filter_sublist _).trans ih)

theorem listCharLe_trans {x y z : List Char}
    (h1 : listCharLe x y = true) (h2 : listCharLe y z = true) :
    listCharLe x z = true := by
  induction x generalizing y z with
  | nil => rfl
  | cons a as ih =>
    cases y with
    | nil => simp [listCharLe] at h1
    | cons b bs =>
      cases z with
      | nil => simp [listCharLe] at h2
      | cons c cs =>
        simp only [listCharLe] at h1 h2 ⊢
        by_cases hab : a.toNat = b.toNat
        · rw [if_pos hab] at h1
          by_cases hbc : b.toNat = c.toNat
          · rw [if_pos hbc] at h2
            rw [if_pos (hab.trans hbc)]
            exact ih h1 h2
          · rw [if_neg hbc] at h2
            have hlt : b.toNat < c.toNat := of_decide_eq_true h2
            have hac : a.toNat < c.toNat := hab ▸ hlt
            rw [if_neg (Nat.ne_of_lt hac)]
            exact decide_eq_true hac
        · rw [if_neg hab] at h1
          have hlt1 : a.toNat < b.toNat := of_decide_eq_true h1
          by_cases hbc : b.toNat = c.toNat
          · have hac : a.toNat < c.toNat := hbc ▸ hlt1
            rw [if_neg (Nat.ne_of_lt hac)]
            exact decide_eq_true hac
          · rw [if_neg hbc] at h2
            have hlt2 : b.toNat < c.toNat := of_decide_eq_true h2
            have hac : a.toNat < c.toNat := Nat.lt_trans hlt1 hlt2
            rw [if_neg (Nat.ne_of_lt hac)]
            exact decide_eq_true hac

theorem listCharLe_total (x y : List Char) :
    listCharLe x y = true ∨ listCharLe y x = true := by
  induction x generalizing y with
  | nil => exact Or.inl rfl
  | cons a as ih =>
    cases y with
    | nil => exact Or.inr rfl
    | cons b bs =>
      simp only [listCharLe]
      by_cases hab : a.toNat = b.toNat
      · rw [if_pos hab, if_pos hab.symm]
        exact ih bs
      · rw [if_neg hab, if_neg (Ne.symm hab)]
        rcases Nat.lt_or_ge a.toNat b.toNat with h | h
        · exact Or.inl (decide_eq_true h)
        · exact Or.inr (decide_eq_true (Nat.lt_of_le_of_ne h (fun e => hab e.symm)))

theorem strLe_trans {a b c : String} (h1 : strLe a b = true) (h2 : strLe b c = true) :
    strLe a c = true := listCharLe_trans h1 h2

theorem strLe_total (a b : String) : (strLe a b || strLe b a) = true := by
  rcases listCharLe_total a.data b.data with h | h <;> simp [strLe, h]

theorem sum_map_count_eq_length {α : Type} [DecidableEq α] :
    ∀ (keys vals : List α), keys.Nodup → (∀ v ∈ vals, v ∈ keys) →
      (keys.map (fun k => vals.count k)).sum = vals.length := by
  intro keys
  induction keys with
  | nil =>
    intro vals _ hcov
    have hnil : vals = [] := by
      cases vals with
      | nil => rfl
      | cons v vs => exact absurd (hcov v (List.mem_cons_self v vs)) (List.not_mem_nil v)
    simp [hnil]
  | cons k ks ih =>
    intro vals hnd hcov
    simp only [List.map_cons, List.sum_cons]
    have hcongr : ks.map (fun j => vals.count j) =
        ks.map (fun j => (vals.filter (fun b => b != k)).count j) := by
      refine List.map_congr_left ?_
      intro j hj
      have hjk : (j != k) = true := by
        have hne : j ≠ k := by
          rintro rfl
          exact (List.nodup_cons.mp hnd).1 hj
        simpa [bne_iff_ne] using hne
      exact (List.count_filter (p := fun b => b != k) hjk).symm
    rw [hcongr, ih (vals.filter (fun b => b != k)) (List.nodup_cons.mp hnd).2 ?cov]
    case cov =>
      intro v hv
      rcases List.mem_filter.mp hv with ⟨hv1, hv2⟩
      rcases List.mem_cons.mp (hcov v hv1) with h | h
      · exact absurd h (by simpa [bne_iff_ne] using hv2)
      · exact h
    clear hcongr hcov hnd ih
    induction vals with
    | nil => rfl
    | cons v vs ihv =>
      simp only [List.count_cons, List.filter_cons]
      by_cases hv : v = k
      · subst hv
        simp only [beq_self_eq_true, bne_self_eq_false, if_true, Bool.false_eq_true,
          if_false, List.length_cons]
        omega
      · have h1 : (v == k) = false := beq_eq_false_iff_ne.mpr hv
        have h2 : (v != k) = true := by simpa [bne_iff_ne] using hv
        simp only [h1, h2, if_true, if_false, Bool.false_eq_true, List.length_cons]
        omega

end Cricbuzz

namespace Cricbuzz

example : to_datetime (Cell.str "2023-01-05") = Cell.date 2023 1 5 := by decide

example : to_datetime (Cell.str "not-a-date") = Cell.null := by decide

end Cricbuzz


namespace Cricbuzz

theorem strLe_refl (a : String) : strLe a a = true := by
  show listCharLe a.data a.data = true
  induction a.data with
  | nil => rfl
  | cons c cs ih => simp [listCharLe, ih]

theorem notnull_any_eq_false {col : List (Option String)}
    (h : ∀ c ∈ col, c = none) : notnull_any col = false := by
  simp only [notnull_any, List.any_eq_false]
  intro c hc
  simp [h c hc]

theorem notnull_any_of_mem {col : List (Option String)} {s : String}
    (h : some s ∈ col) : notnull_any col = true := by
  simp only [notnull_any, List.any_eq_true]
  exact ⟨some s, h, rfl⟩

unseal List.merge List.mergeSort in
/-- C9: the "Matches by Category" KPI chart aggregation
(`matches['Match Category'].value_counts()`, `app.py` lines 123–125) counts
raw values case-sensitively: on `["live", "Live", "recent"]` it yields three
distinct entries of count 1 each, while the case-insensitive KPI counter
(`app.py` lines 94–96) counts 2 for `"live"` over the same column. -/
theorem category_counts_case_sensitive :
    category_counts [some "live", some "Live", some "recent"] =
      [("live", 1), ("Live", 1), ("recent", 1)] ∧
    category_count [some "live", some "Live", some "recent"] "live" = 2 :=
  ⟨rfl, rfl⟩

/-- C3: for a lower-case target label (the app only uses `'upcoming'`,
`'live'`, `'recent'`), the category count (`app.py` lines 94–96) counts the
rows whose `Match Category` equals the target case-insensitively; it is 0 on
an all-null column; and on `["live", "Live", "recent"]` it returns 2 for
`"live"`, 1 for `"recent"`, 0 for `"upcoming"`. -/
theorem category_count_correct (col : List (Option String)) (target : String)
    (ht : str_lower target = target) :
    category_count col target =
      col.countP (fun c =>
        match c with
        | some s => str_lower s == str_lower target
        | none => false) ∧
    ((∀ c ∈ col, c = none) → category_count col target = 0) ∧
    category_count [some "live", some "Live", some "recent"] "live" = 2 ∧
    category_count [some "live", some "Live", some "recent"] "recent" = 1 ∧
    category_count [some "live", some "Live", some "recent"] "upcoming" = 0 := by
  refine ⟨?_, ?_, rfl, rfl, rfl⟩
  · have hpred : (fun c =>
        match c with
        | some s => str_lower s == str_lower target
        | none => false) = matchesTarget target := by
      funext c
      cases c with
      | none => rfl
      | some s => simp [matchesTarget, ht]
    rw [hpred]
    by_cases hg : notnull_any col = true
    · simp [category_count, hg]
    · have hfalse : notnull_any col = false := by
        cases hx : notnull_any col with
        | true => exact absurd hx hg
        | false => rfl
      have hallnone : ∀ c ∈ col, c = none := by
        intro c hc
        rcases c with _ | s
        · rfl
        · exact absurd (notnull_any_of_mem hc) hg
      have hcount : col.countP (matchesTarget target) = 0 := by
        rw [List.countP_eq_zero]
        intro c hc
        rw [hallnone c hc]
        simp [matchesTarget]
      simp [category_count, hfalse, hcount]
  · intro hall
    simp [category_count, notnull_any_eq_false hall]

/-- Witness for C3 at a concrete column and target. -/
theorem category_count_correct_witness :
    str_lower "live" = "live" ∧
    category_count [some "Live", none] "live" =
      [some "Live", none].countP (fun c =>
        match c with
        | some s => str_lower s == str_lower "live"
        | none => false) ∧
    category_count [none, none] "live" = 0 :=
  ⟨by decide,
   (category_count_correct [some "Live", none] "live" (by decide)).1,
   (category_count_correct [none, none] "live" (by decide)).2.1 (by decide)⟩

/-- C10: the team frequency table (`pd.concat` of `Team 1` and `Team 2` then
`value_counts`, `app.py` lines 152–153) distributes every non-null team entry
of either column into exactly one bucket: the counts sum to the number of
non-null `Team 1` entries plus the number of non-null `Team 2` entries. -/
theorem team_counts_total (col1 col2 : List (Option String)) :
    ((team_counts col1 col2).map (fun p => p.2)).sum =
      (dropna col1).length + (dropna col2).length := by
  have hperm : List.Perm (team_counts col1 col2)
      ((dedupKeepFirst (dropna (col1 ++ col2))).map
        (fun k => (k, (dropna (col1 ++ col2)).count k))) :=
    List.mergeSort_perm _ _
  have hsum : ((team_counts col1 col2).map (fun p => p.2)).sum =
      (((dedupKeepFirst (dropna (col1 ++ col2))).map
        (fun k => (k, (dropna (col1 ++ col2)).count k))).map (fun p => p.2)).sum :=
    (hperm.map (fun p => p.2)).sum_eq
  rw [hsum, List.map_map]
  have hkey : ((dedupKeepFirst (dropna (col1 ++ col2))).map
      (fun k => (dropna (col1 ++ col2)).count k)).sum = (dropna (col1 ++ col2)).length := by
    refine sum_map_count_eq_length _ _ (nodup_dedupKeepFirst _) ?_
    intro v hv
    exact mem_dedupKeepFirst.mpr hv
  have hcomp : ((fun p : String × Nat => p.2) ∘ fun k => (k, (dropna (col1 ++ col2)).count k)) =
      fun k => (dropna (col1 ++ col2)).count k := rfl
  rw [hcomp, hkey]
  simp [dropna, List.filterMap_append]

end Cricbuzz

namespace Cricbuzz

theorem le_foldr_max {l : List Nat} {x : Nat} (h : x ∈ l) : x ≤ l.foldr max 0 := by
  induction l with
  | nil => cases h
  | cons a as ih =>
    rcases List.mem_cons.mp h with rfl | h
    · exact Nat.le_max_left _ _
    · exact Nat.le_trans (ih h) (Nat.le_max_right _ _)

theorem foldr_max_mem (l : List Nat) (h : l ≠ []) : l.foldr max 0 ∈ l := by
  induction l with
  | nil => exact absurd rfl h
  | cons a as ih =>
    cases as with
    | nil => simp
    | cons b bs =>
      rcases Nat.le_total (List.foldr max 0 (b :: bs)) a with h1 | h1
      · simp only [List.foldr_cons] at *
        rw [Nat.max_eq_left h1]
        exact List.mem_cons_self _ _
      · have hmem := ih (by simp)
        simp only [List.foldr_cons] at *
        rw [Nat.max_eq_right h1]
        exact List.mem_cons_of_mem _ hmem

theorem count_le_maxCount {vs : List String} {v : String} (h : v ∈ vs) :
    vs.count v ≤ maxCount vs :=
  le_foldr_max (List.mem_map_of_mem (fun v => vs.count v) h)

theorem maxCount_attained {vs : List String} (h : vs ≠ []) :
    ∃ v ∈ vs, vs.count v = maxCount vs := by
  have hne : vs.map (fun v => vs.count v) ≠ [] := by
    simpa [List.map_eq_nil_iff] using h
  have hmem := foldr_max_mem _ hne
  rcases List.mem_map.mp hmem with ⟨v, hv, hcount⟩
  exact ⟨v, hv, hcount⟩

theorem mem_dropna {col : List (Option String)} {s : String} :
    s ∈ dropna col ↔ some s ∈ col := by
  simp [dropna, List.mem_filterMap]

theorem mode_ne_nil {col : List (Option String)} (h : notnull_any col = true) :
    mode col ≠ [] := by
  have hvs : dropna col ≠ [] := by
    simp only [notnull_any, List.any_eq_true] at h
    rcases h with ⟨c, hc, hsome⟩
    rcases c with _ | s
    · simp at hsome
    · have : s ∈ dropna col := mem_dropna.mpr hc
      exact List.ne_nil_of_mem this
  rcases maxCount_attained hvs with ⟨v, hv, hcount⟩
  have hfil : v ∈ (dedupKeepFirst (dropna col)).filter
      (fun v => (dropna col).count v == maxCount (dropna col)) := by
    rw [List.mem_filter]
    exact ⟨mem_dedupKeepFirst.mpr hv, by simpa using hcount⟩
  have : v ∈ mode col := by
    rw [mode, List.mem_mergeSort]
    exact hfil
  exact List.ne_nil_of_mem this

theorem mem_mode {col : List (Option String)} {v : String} (h : v ∈ mode col) :
    v ∈ dropna col ∧ (dropna col).count v = maxCount (dropna col) := by
  rw [mode, List.mem_mergeSort, List.mem_filter] at h
  exact ⟨mem_dedupKeepFirst.mp h.1, by simpa using h.2⟩

theorem mode_sorted (col : List (Option String)) :
    (mode col).Pairwise (fun a b => strLe a b = true) :=
  @List.sorted_mergeSort String strLe (fun _ _ _ h1 h2 => strLe_trans h1 h2) strLe_total _

/-- C4: the most-played-venue KPI (`app.py` line 93) returns a value of
maximal frequency among the non-null venues when one exists, and the
sentinel `"N/A"` on an all-null column; being a total `String`-valued
function of the column it never raises and never returns null. -/
theorem most_played_venue_spec (col : List (Option String)) :
    ((∀ c ∈ col, c = none) → most_played_venue col = "N/A") ∧
    (notnull_any col = true →
      most_played_venue col ∈ dropna col ∧
      ∀ v ∈ dropna col, (dropna col).count v ≤ (dropna col).count (most_played_venue col)) := by
  constructor
  · intro hall
    simp [most_played_venue, notnull_any_eq_false hall]
  · intro hg
    have hmode : most_played_venue col ∈ mode col := by
      rcases hm : mode col with _ | ⟨m, ms⟩
      · exact absurd hm (mode_ne_nil hg)
      · simp [most_played_venue, hg, hm]
    rcases mem_mode hmode with ⟨hmem, hcount⟩
    refine ⟨hmem, ?_⟩
    intro v hv
    rw [hcount]
    exact count_le_maxCount hv

/-- Witness for C4 at concrete columns. -/
theorem most_played_venue_spec_witness :
    most_played_venue [none, none] = "N/A" ∧
    most_played_venue [some "a", none] ∈ dropna [some "a", none] :=
  ⟨(most_played_venue_spec [none, none]).1 (by decide),
   ((most_played_venue_spec [some "a", none]).2 (by decide)).1⟩

/-- C8: on a column with at least one non-null venue the most-played-venue
KPI (`mode()[0]`, `app.py` line 93) is the first element of the ascending
mode list, hence the least tied value in the sort order used for modes; as
a pure function of the column it is deterministic across runs. -/
theorem most_played_venue_tie_break (col : List (Option String))
    (h : notnull_any col = true) :
    most_played_venue col ∈ mode col ∧
    ∀ v ∈ mode col, strLe (most_played_venue col) v = true := by
  rcases hm : mode col with _ | ⟨m, ms⟩
  · exact absurd hm (mode_ne_nil h)
  · have hval : most_played_venue col = m := by simp [most_played_venue, h, hm]
    have hsorted := mode_sorted col
    rw [hm] at hsorted
    constructor
    · rw [hval]; exact List.mem_cons_self _ _
    · intro v hv
      rcases List.mem_cons.mp hv with rfl | hv
      · rw [hval]; exact strLe_refl v
      · rw [hval]
        exact (List.pairwise_cons.mp hsorted).1 v hv

/-- Witness for C8 on a column with a two-way tie. -/
theorem most_played_venue_tie_break_witness :
    notnull_any [some "b", some "a"] = true ∧
    most_played_venue [some "b", some "a"] ∈ mode [some "b", some "a"] :=
  ⟨by decide, (most_played_venue_tie_break [some "b", some "a"] (by decide)).1⟩

end Cricbuzz

namespace Cricbuzz

theorem pairDesc_trans (a b c : String × Nat) (h1 : decide (b.2 ≤ a.2) = true)
    (h2 : decide (c.2 ≤ b.2) = true) : decide (c.2 ≤ a.2) = true := by
  simp only [decide_eq_true_eq] at *
  exact Nat.le_trans h2 h1

theorem pairDesc_total (a b : String × Nat) :
    (decide (b.2 ≤ a.2) || decide (a.2 ≤ b.2)) = true := by
  rcases Nat.le_total b.2 a.2 with h | h <;> simp [h]

theorem natLe_trans (a b c : Nat) (h1 : decide (a ≤ b) = true)
    (h2 : decide (b ≤ c) = true) : decide (a ≤ c) = true := by
  simp only [decide_eq_true_eq] at *
  exact Nat.le_trans h1 h2

theorem natLe_total (a b : Nat) : (decide (a ≤ b) || decide (b ≤ a)) = true := by
  rcases Nat.le_total a b with h | h <;> simp [h]

/-- C5: every top-10 frequency truncation (`value_counts(...)` then
`.head(10)`, used for teams, venues, series and toss winners) has at most
10 entries, is sorted by descending count, and the underlying sort is
deterministic and stable: two entries tied on count keep their relative
first-appearance order (the key list before sorting is in first-appearance
order).  `team_counts c1 c2` is definitionally `value_counts (c1 ++ c2)`,
so this statement covers all four charts. -/
theorem top10_value_counts_spec (col : List (Option String)) :
    (head10 (value_counts col)).length ≤ 10 ∧
    (head10 (value_counts col)).Pairwise (fun a b => b.2 ≤ a.2) ∧
    (∀ a b : String × Nat, a.2 = b.2 →
      List.Sublist [a, b]
        ((dedupKeepFirst (dropna col)).map (fun k => (k, (dropna col).count k))) →
      List.Sublist [a, b] (value_counts col)) := by
  refine ⟨?_, ?_, ?_⟩
  · simp only [head10]
    exact List.length_take_le 10 (value_counts col)
  · have hsorted : (value_counts col).Pairwise (fun a b => decide (b.2 ≤ a.2) = true) :=
      @List.sorted_mergeSort (String × Nat) (fun a b => decide (b.2 ≤ a.2))
        pairDesc_trans pairDesc_total _
    have htake : (head10 (value_counts col)).Pairwise (fun a b => decide (b.2 ≤ a.2) = true) :=
      List.Pairwise.sublist (List.take_sublist _ _) hsorted
    exact htake.imp (fun h => of_decide_eq_true h)
  · intro a b hab hsub
    exact List.pair_sublist_mergeSort pairDesc_trans pairDesc_total
      (by simp [hab]) hsub

/-- Witness for C5's stability clause on a concrete tied column. -/
theorem top10_value_counts_spec_witness :
    List.Sublist [(("b" : String), 1), ("a", 1)] (value_counts [some "b", some "a"]) :=
  (top10_value_counts_spec [some "b", some "a"]).2.2 ("b", 1) ("a", 1) rfl
    (List.Sublist.refl _)

unseal List.merge List.mergeSort in
/-- C6: the time series (`groupby(matches['Start Date'].dt.year).size()`,
`app.py` line 159) is strictly ascending in the year, counts exactly the
rows whose parsed date has that year (null dates excluded, each count
positive), covers every year that occurs, is empty when all dates are
null, and on the parsed dates of `["2023-01-05", "not-a-date",
"2023-06-01"]` equals `[(2023, 2)]`. -/
theorem over_years_spec (col : List Cell) :
    (over_years col).Pairwise (fun a b => a.1 < b.1) ∧
    (∀ p ∈ over_years col,
      some p.1 ∈ col.map dt_year ∧ p.2 = (col.filterMap dt_year).count p.1 ∧ 0 < p.2) ∧
    (∀ y, some y ∈ col.map dt_year → y ∈ (over_years col).map Prod.fst) ∧
    ((∀ c ∈ col, dt_year c = none) → over_years col = []) ∧
    over_years (["2023-01-05", "not-a-date", "2023-06-01"].map
      (fun s => to_datetime (Cell.str s))) = [(2023, 2)] := by
  refine ⟨?_, ?_, ?_, ?_, rfl⟩
  · rw [over_years, List.pairwise_map]
    have hsorted : ((dedupKeepFirst (col.filterMap dt_year)).mergeSort
        (fun a b => decide (a ≤ b))).Pairwise (fun a b => decide (a ≤ b) = true) :=
      @List.sorted_mergeSort Nat (fun a b => decide (a ≤ b)) natLe_trans natLe_total _
    have hnodup : ((dedupKeepFirst (col.filterMap dt_year)).mergeSort
        (fun a b => decide (a ≤ b))).Nodup :=
      (List.mergeSort_perm _ _).symm.nodup (nodup_dedupKeepFirst _)
    refine (hsorted.and hnodup).imp ?_
    rintro a b ⟨h1, h2⟩
    exact Nat.lt_of_le_of_ne (of_decide_eq_true h1) h2
  · intro p hp
    rw [over_years] at hp
    rcases List.mem_map.mp hp with ⟨y, hy, rfl⟩
    rw [List.mem_mergeSort, mem_dedupKeepFirst] at hy
    rcases List.mem_filterMap.mp hy with ⟨c, hc, hfc⟩
    refine ⟨?_, rfl, ?_⟩
    · exact List.mem_map.mpr ⟨c, hc, hfc⟩
    · exact List.count_pos_iff.mpr hy
  · intro y hy
    rcases List.mem_map.mp hy with ⟨c, hc, hfc⟩
    have hys : y ∈ col.filterMap dt_year := List.mem_filterMap.mpr ⟨c, hc, hfc⟩
    rw [over_years, List.map_map]
    have hid : (Prod.fst ∘ fun y => (y, (col.filterMap dt_year).count y)) = id := rfl
    rw [hid, List.map_id, List.mem_mergeSort, mem_dedupKeepFirst]
    exact hys
  · intro hall
    have hnil : col.filterMap dt_year = [] := by
      rw [List.filterMap_eq_nil_iff]
      exact hall
    rw [over_years, hnil]
    rfl

/-- Witness for C6's all-null and coverage clauses at concrete columns. -/
theorem over_years_spec_witness :
    over_years [Cell.null] = [] ∧
    (2023 : Nat) ∈ (over_years [Cell.date 2023 1 5]).map Prod.fst :=
  ⟨(over_years_spec [Cell.null]).2.2.2.1 (by decide),
   (over_years_spec [Cell.date 2023 1 5]).2.2.1 2023 (by decide)⟩

end Cricbuzz

namespace Cricbuzz

theorem sum_map_le_sum_map {α : Type} (l : List α) (f g : α → Nat)
    (h : ∀ a ∈ l, f a ≤ g a) : (l.map f).sum ≤ (l.map g).sum := by
  induction l with
  | nil => simp
  | cons a as ih =>
    simp only [List.map_cons, List.sum_cons]
    have h1 := h a (List.mem_cons_self a as)
    have h2 := ih (fun b hb => h b (List.mem_cons_of_mem _ hb))
    omega

theorem matchesTarget_disjoint {l t : String} (hlt : l ≠ t) :
    matchesTarget t = (fun c => matchesTarget t c && !(matchesTarget l c)) := by
  funext c
  rcases c with _ | s
  · rfl
  · simp only [matchesTarget]
    by_cases hst : str_lower s = t
    · have hsl : (str_lower s == l) = false := by
        rw [beq_eq_false_iff_ne, hst]
        exact fun e => hlt e.symm
      simp only [hst, hsl, beq_self_eq_true, Bool.not_false, Bool.and_true]
      simp [beq_iff_eq]
      exact fun e => hlt e.symm
    · simp [beq_eq_false_iff_ne.mpr hst]

theorem sum_countP_matches_le_length (col : List (Option String)) :
    ∀ labels : List String, labels.Pairwise (fun a b => a ≠ b) →
      (labels.map (fun t => col.countP (matchesTarget t))).sum ≤ col.length := by
  intro labels
  induction labels generalizing col with
  | nil => intro _; simp
  | cons l ls ih =>
    intro hd
    simp only [List.map_cons, List.sum_cons]
    have hcongr : ls.map (fun t => col.countP (matchesTarget t)) =
        ls.map (fun t => (col.filter (fun c => !(matchesTarget l c))).countP (matchesTarget t)) := by
      refine List.map_congr_left ?_
      intro t ht
      have hlt : l ≠ t := (List.pairwise_cons.mp hd).1 t ht
      rw [List.countP_filter]
      exact congrArg (fun p => col.countP p) (matchesTarget_disjoint hlt)
    rw [hcongr]
    have htail := ih (col.filter (fun c => !(matchesTarget l c))) (List.pairwise_cons.mp hd).2
    have hsplit : col.countP (matchesTarget l) +
        (col.filter (fun c => !(matchesTarget l c))).length = col.length := by
      have h1 := List.length_eq_countP_add_countP (p := matchesTarget l) col
      have h2 : col.countP (fun a => ¬ matchesTarget l a) =
          (col.filter (fun c => !(matchesTarget l c))).length := by
        rw [← List.countP_eq_length_filter]
        refine List.countP_congr ?_
        intro c _
        cases matchesTarget l c <;> simp
      omega
    omega

/-- C7: each category count (`app.py` lines 88–96) is between 0 and the
total row count, and over labels that are pairwise distinct
case-insensitively (such as `'upcoming'`, `'live'`, `'recent'`), the
counts sum to at most the total row count. -/
theorem category_count_bounds (col : List (Option String)) (labels : List String)
    (hd : labels.Pairwise (fun a b => str_lower a ≠ str_lower b)) :
    (∀ target, 0 ≤ category_count col target ∧ category_count col target ≤ col.length) ∧
    (labels.map (fun t => category_count col t)).sum ≤ col.length := by
  have hcc_le : ∀ t, category_count col t ≤ col.countP (matchesTarget t) := by
    intro t
    unfold category_count
    split
    · exact Nat.le_refl _
    · exact Nat.zero_le _
  constructor
  · intro t
    exact ⟨Nat.zero_le _, Nat.le_trans (hcc_le t) (List.countP_le_length _)⟩
  · have hne : labels.Pairwise (fun a b => a ≠ b) :=
      hd.imp (fun h e => h (by rw [e]))
    refine Nat.le_trans (sum_map_le_sum_map labels _ _ (fun t _ => hcc_le t)) ?_
    exact sum_countP_matches_le_length col labels hne

/-- Witness for C7 at a concrete column and label set. -/
theorem category_count_bounds_witness :
    category_count [some "live", none] "live" ≤ 2 ∧
    ((["live", "recent"].map
      (fun t => category_count [some "live", none] t)).sum ≤ 2) :=
  ⟨((category_count_bounds [some "live", none] ["live", "recent"] (by decide)).1 "live").2,
   (category_count_bounds [some "live", none] ["live", "recent"] (by decide)).2⟩

end Cricbuzz

namespace Cricbuzz

theorem find?_isSome_of_hasCol {t : Table} {c : String} (h : hasCol t c = true) :
    (t.cols.find? (fun p => p.1 == c)).isSome = true := by
  rw [List.find?_isSome]
  simpa [hasCol, List.any_eq_true] using h

theorem getCol_append_left {n m : Nat} {cols extra : List (String × List Cell)} {c : String}
    (h : hasCol ⟨n, cols⟩ c = true) :
    getCol ⟨m, cols ++ extra⟩ c = getCol ⟨n, cols⟩ c := by
  simp only [getCol, List.find?_append]
  rcases hfind : cols.find? (fun p => p.1 == c) with _ | pr
  · have hsome : (cols.find? (fun p => p.1 == c)).isSome = true :=
      find?_isSome_of_hasCol h
    rw [hfind] at hsome
    simp at hsome
  · simp [hfind]

theorem hasCol_append_left {n m : Nat} {cols extra : List (String × List Cell)} {c : String}
    (h : hasCol ⟨n, cols⟩ c = true) : hasCol ⟨m, cols ++ extra⟩ c = true := by
  simp only [hasCol, List.any_append, Bool.or_eq_true]
  exact Or.inl h

theorem add_missing_preserves {cs : List String} {t : Table} {c : String}
    (h : hasCol t c = true) :
    hasCol (add_missing cs t) c = true ∧ getCol (add_missing cs t) c = getCol t c := by
  induction cs generalizing t with
  | nil => exact ⟨h, rfl⟩
  | cons c' rest ih =>
    simp only [add_missing]
    by_cases hc' : hasCol t c' = true
    · rw [if_pos hc']
      exact ih h
    · rw [if_neg hc']
      have ht' : hasCol ⟨t.nrows, t.cols ++ [(c', List.replicate t.nrows Cell.null)]⟩ c = true :=
        hasCol_append_left h
      rcases ih ht' with ⟨h1, h2⟩
      refine ⟨h1, ?_⟩
      rw [h2]
      exact getCol_append_left h

theorem add_missing_fills {cs : List String} {t : Table} {c : String}
    (hmem : c ∈ cs) (habs : hasCol t c = false) :
    getCol (add_missing cs t) c = some (List.replicate t.nrows Cell.null) := by
  induction cs generalizing t with
  | nil => cases hmem
  | cons c' rest ih =>
    simp only [add_missing]
    by_cases hcc : c = c'
    · subst hcc
      rw [if_neg (by simp [habs])]
      have hnew : getCol ⟨t.nrows, t.cols ++ [(c, List.replicate t.nrows Cell.null)]⟩ c =
          some (List.replicate t.nrows Cell.null) := by
        simp only [getCol, List.find?_append]
        have hnone : t.cols.find? (fun p => p.1 == c) = none := by
          rw [List.find?_eq_none]
          intro p hp
          have hall : ∀ p ∈ t.cols, ¬(p.1 == c) = true := by
            simpa [hasCol, List.any_eq_false] using habs
          exact hall p hp
        rw [hnone]
        simp [List.find?]
      have hhas : hasCol ⟨t.nrows, t.cols ++ [(c, List.replicate t.nrows Cell.null)]⟩ c = true := by
        simp [hasCol, List.any_append]
      rcases @add_missing_preserves rest _ _ hhas with ⟨_, h2⟩
      rw [h2, hnew]
    · have hmem' : c ∈ rest := by
        rcases List.mem_cons.mp hmem with h | h
        · exact absurd h hcc
        · exact h
      by_cases hc' : hasCol t c' = true
      · rw [if_pos hc']
        exact ih hmem' habs
      · rw [if_neg hc']
        have habs' : hasCol ⟨t.nrows, t.cols ++ [(c', List.replicate t.nrows Cell.null)]⟩ c
            = false := by
          simp only [hasCol, List.any_append, Bool.or_eq_false_iff]
          constructor
          · simpa [hasCol] using habs
          · simp only [List.any_cons, List.any_nil, Bool.or_false]
            rw [beq_eq_false_iff_ne]
            exact fun e => hcc e.symm
        exact ih hmem' habs'

theorem find?_name_map (c : String) (ps : List (String × List Cell))
    (f : String × List Cell → String × List Cell) (hf : ∀ p, (f p).1 = p.1) :
    (ps.map f).find? (fun p => p.1 == c) = (ps.find? (fun p => p.1 == c)).map f := by
  induction ps with
  | nil => rfl
  | cons p ps ih =>
    simp only [List.map_cons, List.find?_cons, hf p]
    cases hx : (p.1 == c)
    · simpa using ih
    · rfl

theorem getCol_mk (n : Nat) (cols : List (String × List Cell)) (c : String) :
    getCol ⟨n, cols⟩ c = (cols.find? (fun p => p.1 == c)).map (fun p => p.2) := rfl

theorem getCol_convert_of_ne {t : Table} {c : String} (h : c ≠ "Start Date") :
    getCol (convert_start_date t) c = getCol t c := by
  rw [convert_start_date, getCol_mk,
    find?_name_map c t.cols _ (fun p => by by_cases hp : (p.1 == "Start Date") = true <;> simp [hp])]
  rcases hfind : t.cols.find? (fun p => p.1 == c) with _ | pr
  · simp [getCol, hfind]
  · have hpr1 : pr.1 = c := by simpa using List.find?_some hfind
    have hne : pr.1 ≠ "Start Date" := by
      rw [hpr1]
      exact h
    simp [getCol, hfind, hne]

theorem getCol_convert_start_date (t : Table) :
    getCol (convert_start_date t) "Start Date" =
      (getCol t "Start Date").map (fun l => l.map to_datetime) := by
  rw [convert_start_date, getCol_mk,
    find?_name_map _ t.cols _ (fun p => by by_cases hp : (p.1 == "Start Date") = true <;> simp [hp])]
  rcases hfind : t.cols.find? (fun p => p.1 == "Start Date") with _ | pr
  · simp [getCol, hfind]
  · have hpr1 : pr.1 = "Start Date" := by simpa using List.find?_some hfind
    simp [getCol, hfind, hpr1]

theorem add_missing_nrows (cs : List String) (t : Table) :
    (add_missing cs t).nrows = t.nrows := by
  induction cs generalizing t with
  | nil => rfl
  | cons c' rest ih =>
    simp only [add_missing]
    by_cases hc' : hasCol t c' = true
    · rw [if_pos hc']
      exact ih t
    · rw [if_neg hc']
      exact ih _

end Cricbuzz

namespace Cricbuzz

theorem to_datetime_null : to_datetime Cell.null = Cell.null := rfl

/-- C1 counterexample: a `Start Date` column that is present in the source
is not left as read — `load_data` re-parses it (`app.py` line 23), so the
loaded column differs from the original on a one-row table holding the
string `"2023-01-05"`. -/
theorem load_matches_not_left_as_read :
    hasCol (⟨1, [("Start Date", [Cell.str "2023-01-05"])]⟩ : Table) "Start Date" = true ∧
    getCol (load_matches ⟨1, [("Start Date", [Cell.str "2023-01-05"])]⟩) "Start Date" ≠
      getCol (⟨1, [("Start Date", [Cell.str "2023-01-05"])]⟩ : Table) "Start Date" :=
  ⟨rfl, by decide⟩

/-- C1 (amended): after loading, every expected column absent from the
source is present and populated entirely with nulls; present columns other
than `Start Date` are left as read; a present `Start Date` column is
re-parsed cell-wise by the date coercion. -/
theorem load_matches_columns (t : Table) (c : String) :
    (c ∈ expected_cols → hasCol t c = false →
      getCol (load_matches t) c = some (List.replicate t.nrows Cell.null)) ∧
    (hasCol t c = true → c ≠ "Start Date" → getCol (load_matches t) c = getCol t c) ∧
    (hasCol t "Start Date" = true →
      getCol (load_matches t) "Start Date" =
        (getCol t "Start Date").map (fun l => l.map to_datetime)) := by
  refine ⟨?_, ?_, ?_⟩
  · intro hmem habs
    have hfill := add_missing_fills hmem habs
    by_cases hsd : c = "Start Date"
    · subst hsd
      rw [load_matches, getCol_convert_start_date, hfill]
      simp [List.map_replicate, to_datetime_null]
    · rw [load_matches, getCol_convert_of_ne hsd, hfill]
  · intro hpres hsd
    rw [load_matches, getCol_convert_of_ne hsd, (add_missing_preserves hpres).2]
  · intro hpres
    rw [load_matches, getCol_convert_start_date, (add_missing_preserves hpres).2]

/-- Witness for C1's amended clauses at concrete tables. -/
theorem load_matches_columns_witness :
    getCol (load_matches ⟨2, [("City", [Cell.str "x", Cell.null])]⟩) "Venue" =
      some (List.replicate 2 Cell.null) ∧
    getCol (load_matches ⟨2, [("City", [Cell.str "x", Cell.null])]⟩) "City" =
      getCol (⟨2, [("City", [Cell.str "x", Cell.null])]⟩ : Table) "City" ∧
    getCol (load_matches ⟨1, [("Start Date", [Cell.str "2023-01-05"])]⟩) "Start Date" =
      (getCol (⟨1, [("Start Date", [Cell.str "2023-01-05"])]⟩ : Table) "Start Date").map
        (fun l => l.map to_datetime) :=
  ⟨(load_matches_columns ⟨2, [("City", [Cell.str "x", Cell.null])]⟩ "Venue").1
      (by decide) (by decide),
   (load_matches_columns ⟨2, [("City", [Cell.str "x", Cell.null])]⟩ "City").2.1
      (by decide) (by decide),
   (load_matches_columns ⟨1, [("Start Date", [Cell.str "2023-01-05"])]⟩ "x").2.2
      (by decide)⟩

end Cricbuzz
